import Mathlib

set_option maxHeartbeats 1000000
set_option maxRecDepth 20000

/-! Shallow embedding of the Rustique pitch-detection core (src/src/main.rs).

f32 values are modelled as exact rationals; a NaN magnitude is modelled by
`Option.none` where the code's comparisons can meet one.  The FFT (rustfft),
the window coefficient `sin(2*pi*i/window_size)^2` of line 237 and the complex
modulus `Complex32::norm` of line 95 are transcendental, so they enter the
embedding as parameters (`fftFn`, `sinSq`, `normFn`); no theorem below depends
on their numeric values.  The `let`-bindings of the source are inlined. -/

/-- An f32 magnitude value: `none` models NaN, `some q` a comparable value. -/
abbrev FVal := Option ℚ

/-- A `Complex32` value as an exact pair (re, im). -/
abbrev C32 := ℚ × ℚ

/-- The published result state of main.rs: (detected_note, detected_freq). -/
abbrev PassState := String × ℚ

/-- Comparison of two comparable f32 values, as `partial_cmp` yields it. -/
def qcmp (a b : ℚ) : Ordering :=
  if a < b then .lt else if b < a then .gt else .eq

/-- Rust `f32::partial_cmp` on magnitude values: a NaN side yields `none`. -/
def fcmp : FVal → FVal → Option Ordering
  | some a, some b => some (qcmp a b)
  | _, _ => none

/-- One step of `Iterator::max_by` with the comparator of main.rs line 120,
`a.1.partial_cmp(b.1).unwrap_or(Ordering::Equal)`: std's `cmp::max_by` keeps
the accumulator only when it compares strictly Greater, otherwise it takes
the new element (so equal elements, and NaN comparisons defaulted to Equal,
move the selection to the later element). -/
def maxByStep (acc y : Nat × FVal) : Nat × FVal :=
  match fcmp acc.2 y.2 with
  | some .gt => acc
  | _ => y

/-- Rust `Iterator::max_by` is `reduce` over `cmp::max_by`. -/
def rustMaxBy (l : List (Nat × FVal)) : Option (Nat × FVal) :=
  match l with
  | [] => none
  | x :: xs => some (xs.foldl maxByStep x)

/-- Lines 117-121: `.iter().enumerate().max_by(...)`, keeping the bin index. -/
def strongestBin (spectrum : List FVal) : Option Nat :=
  (rustMaxBy spectrum.enum).map Prod.fst

/-- Lines 122-123: `strongest_bin_idx as f32 * (sample_rate as f32 / window_size as f32)`. -/
def binFrequency (sample_rate window_size : Nat) (k : Nat) : ℚ :=
  (k : ℚ) * ((sample_rate : ℚ) / (window_size : ℚ))

/-- Lines 32-45: the note table, f32 literals as exact decimals. -/
def NOTES : List (String × ℚ) :=
  [("C", 261.63), ("C#", 277.18), ("D", 293.66), ("D#", 311.13),
   ("E", 329.63), ("F", 349.23), ("F#", 369.99), ("G", 392.00),
   ("G#", 415.30), ("A", 440.00), ("A#", 466.16), ("B", 493.88)]

/-- The exact value of `f32::MAX`, the initial `min_diff` of line 158,
written over ℕ so that it evaluates by kernel reduction. -/
def f32MAX : ℚ := (((2 ^ 24 - 1) * 2 ^ 104 : ℕ) : ℚ)

/-- Iterated product, structurally recursive so the kernel can evaluate it. -/
def qpowNat (x : ℚ) : Nat → ℚ
  | 0 => 1
  | n + 1 => x * qpowNat x n

/-- Rust `x.powi(n)`, exact for powers of two. -/
def powi (x : ℚ) (n : ℤ) : ℚ :=
  if 0 ≤ n then qpowNat x n.toNat else (qpowNat x (-n).toNat)⁻¹

/-- Rust `f32::abs`, as used on line 163. -/
def qabs (a : ℚ) : ℚ := if a < 0 then -a else a

/-- The candidate scan order of lines 160-162: octave-major then note-minor;
each candidate carries (name, octave, `base_freq * 2f32.powi(octave - 4)`). -/
def candidates : List (String × Nat × ℚ) :=
  (List.range 8).flatMap (fun o => NOTES.map (fun p => (p.1, o, p.2 * powi 2 ((o : ℤ) - 4))))

/-- Lines 163-169: one loop body of `frequency_to_note`; the fold state is
(min_diff, closest_note, closest_octave). -/
def noteScanStep (freq : ℚ) (st : ℚ × Option (String × ℚ) × Nat) (c : String × Nat × ℚ) :
    ℚ × Option (String × ℚ) × Nat :=
  if qabs (freq - c.2.2) < st.1 then (qabs (freq - c.2.2), some (c.1, c.2.2), c.2.1) else st

/-- Lines 157-170: the whole candidate scan from the initial state
`(f32::MAX, None, 0)`. -/
def noteScan (freq : ℚ) : ℚ × Option (String × ℚ) × Nat :=
  candidates.foldl (noteScanStep freq) (f32MAX, none, 0)

/-- Lines 153-172: `frequency_to_note`. -/
def frequency_to_note (freq : ℚ) : Option (String × ℚ) :=
  if freq ≤ 0 then none
  else (noteScan freq).2.1.map (fun p => (p.1 ++ toString (noteScan freq).2.2, p.2))

/-- Lines 236-238: the window coefficient table; `sinSq i` stands for
`sin(2*pi*i/window_size)^2`. -/
def hannCoeffs (sinSq : Nat → ℚ) (window_size : Nat) : List ℚ :=
  (List.range window_size).map sinSq

/-- Lines 243-247: the windowed frame starting at `pos`, as complex values
`(sample * w, 0)`. -/
def windowedFrame (sinSq : Nat → ℚ) (buffer : List ℚ) (window_size pos : Nat) : List C32 :=
  (((buffer.drop pos).take window_size).zip (hannCoeffs sinSq window_size)).map
    (fun p => (p.1 * p.2, 0))

/-- Lines 242-252: the `while pos + window_size <= buffer.len()` loop, with
explicit fuel; `buffer.length + 1` fuel is enough whenever `hop_size ≥ 1`
(with `hop_size = 0` the Rust loop never terminates). -/
def stftLoop (fftFn : List C32 → List C32) (sinSq : Nat → ℚ) (buffer : List ℚ)
    (window_size hop_size : Nat) : Nat → Nat → List (List C32)
  | _, 0 => []
  | pos, fuel + 1 =>
    if pos + window_size ≤ buffer.length then
      fftFn (windowedFrame sinSq buffer window_size pos) ::
        stftLoop fftFn sinSq buffer window_size hop_size (pos + hop_size) fuel
    else []

/-- Lines 229-255: `compute_short_time_fourier_transform`. -/
def compute_short_time_fourier_transform (fftFn : List C32 → List C32) (sinSq : Nat → ℚ)
    (buffer : List ℚ) (window_size hop_size : Nat) : List (List C32) :=
  stftLoop fftFn sinSq buffer window_size hop_size 0 (buffer.length + 1)

/-- Addition of possibly-NaN magnitudes: NaN propagates. -/
def fAdd : FVal → FVal → FVal
  | some a, some b => some (a + b)
  | _, _ => none

/-- Lines 108-112: `average_magnitudes_per_bin[bin_idx] += *mag` for one frame.
Rust indexing panics out of range; `List.set` leaves the list unchanged there,
a divergence only reachable on inputs where the Rust program aborts. -/
def accumulateFrame (acc : List FVal) (frame : List FVal) : List FVal :=
  frame.enum.foldl (fun a p => a.set p.1 (fAdd (a.getD p.1 none) p.2)) acc

/-- Lines 105-115: sum all frames into `vec![0.0; num_bins]`, then divide each
bin by `num_frames`. -/
def averageMagnitudes (mags : List (List FVal)) (num_bins : Nat) : List FVal :=
  (mags.foldl accumulateFrame (List.replicate num_bins (some 0))).map
    (fun s => s.map (fun q => q / (mags.length : ℚ)))

/-- Lines 117-133: pick the strongest bin, convert it to a frequency, quantize
it to a note, and publish `(note_name, dominant_freq)`; on `None` from the
quantizer (or from `max_by`) the published state is kept. -/
def quantizeStep (sample_rate window_size : Nat) (avg : List FVal) (st : PassState) :
    PassState :=
  match rustMaxBy avg.enum with
  | none => st
  | some kv =>
    match frequency_to_note (binFrequency sample_rate window_size kv.1) with
    | none => st
    | some nf => (nf.1, binFrequency sample_rate window_size kv.1)

/-- Lines 80-137: one iteration of the analysis loop, acting on the buffer and
the published result state. -/
def analysisPass (fftFn : List C32 → List C32) (sinSq : Nat → ℚ) (normFn : C32 → FVal)
    (sample_rate window_size hop_size : Nat) (buffer : List ℚ) (st : PassState) :
    List ℚ × PassState :=
  if buffer.length < window_size then (buffer, st)
  else if compute_short_time_fourier_transform fftFn sinSq buffer window_size hop_size = [] then
    (buffer.drop (min hop_size buffer.length), st)
  else
    match (compute_short_time_fourier_transform fftFn sinSq buffer window_size hop_size).map
        (fun fr => (fr.take (window_size / 2)).map normFn) with
    | [] => (buffer.drop (min hop_size buffer.length), st)
    | m0 :: rest =>
      if m0 = [] then (buffer.drop (min hop_size buffer.length), st)
      else
        (buffer.drop (min hop_size buffer.length),
          quantizeStep sample_rate window_size
            (averageMagnitudes (m0 :: rest) m0.length) st)

/-- Lines 48-49: the initial published result state. -/
def initialDetectedNote : String := "A4"

/-- Line 49: the initial published frequency. -/
def initialDetectedFreq : ℚ := 440

/-! ### Frame-count lemmas for the short-time Fourier transform -/

theorem stftLoop_succ (fftFn : List C32 → List C32) (sinSq : Nat → ℚ) (buffer : List ℚ)
    (window_size hop_size pos fuel : Nat) :
    stftLoop fftFn sinSq buffer window_size hop_size pos (fuel + 1)
      = if pos + window_size ≤ buffer.length then
          fftFn (windowedFrame sinSq buffer window_size pos) ::
            stftLoop fftFn sinSq buffer window_size hop_size (pos + hop_size) fuel
        else [] := rfl

theorem stftLoop_zero (fftFn : List C32 → List C32) (sinSq : Nat → ℚ) (buffer : List ℚ)
    (window_size hop_size pos : Nat) :
    stftLoop fftFn sinSq buffer window_size hop_size pos 0 = [] := rfl

theorem stftLoop_length_eq (fftFn : List C32 → List C32) (sinSq : Nat → ℚ) (buffer : List ℚ)
    (window_size hop_size : Nat) (hhop : 1 ≤ hop_size) :
    ∀ fuel pos,
      (if pos + window_size ≤ buffer.length
        then (buffer.length - pos - window_size) / hop_size + 1 else 0) ≤ fuel →
      (stftLoop fftFn sinSq buffer window_size hop_size pos fuel).length
        = if pos + window_size ≤ buffer.length
            then (buffer.length - pos - window_size) / hop_size + 1 else 0 := by
  intro fuel
  induction fuel with
  | zero =>
    intro pos h
    by_cases hc : pos + window_size ≤ buffer.length
    · rw [if_pos hc] at h; exact absurd h (Nat.not_succ_le_zero _)
    · rw [stftLoop_zero, if_neg hc]; rfl
  | succ fuel ih =>
    intro pos h
    by_cases hc : pos + window_size ≤ buffer.length
    · rw [if_pos hc] at h
      rw [stftLoop_succ, if_pos hc, if_pos hc, List.length_cons]
      by_cases hc2 : pos + hop_size + window_size ≤ buffer.length
      · have h1 : hop_size ≤ buffer.length - pos - window_size := by omega
        have h2 : buffer.length - (pos + hop_size) - window_size
            = buffer.length - pos - window_size - hop_size := by omega
        have hdiv : (buffer.length - pos - window_size) / hop_size
            = (buffer.length - (pos + hop_size) - window_size) / hop_size + 1 := by
          rw [h2]; exact Nat.div_eq_sub_div (by omega) h1
        have hrec := ih (pos + hop_size) (by rw [if_pos hc2]; omega)
        rw [hrec, if_pos hc2]; omega
      · have hlt : buffer.length - pos - window_size < hop_size := by omega
        have hrec := ih (pos + hop_size) (by rw [if_neg hc2]; omega)
        rw [hrec, if_neg hc2, Nat.div_eq_of_lt hlt]
    · rw [stftLoop_succ, if_neg hc, if_neg hc]; rfl

theorem stft_length (fftFn : List C32 → List C32) (sinSq : Nat → ℚ) (buffer : List ℚ)
    (window_size hop_size : Nat) (hhop : 1 ≤ hop_size) :
    (compute_short_time_fourier_transform fftFn sinSq buffer window_size hop_size).length
      = if window_size ≤ buffer.length
          then (buffer.length - window_size) / hop_size + 1 else 0 := by
  have h := stftLoop_length_eq fftFn sinSq buffer window_size hop_size hhop
    (buffer.length + 1) 0 ?_
  · simpa using h
  · by_cases hc : 0 + window_size ≤ buffer.length
    · rw [if_pos hc]
      have := Nat.div_le_self (buffer.length - 0 - window_size) hop_size
      omega
    · rw [if_neg hc]; omega

theorem stft_ne_nil_imp (fftFn : List C32 → List C32) (sinSq : Nat → ℚ) (buffer : List ℚ)
    (window_size hop_size : Nat)
    (h : compute_short_time_fourier_transform fftFn sinSq buffer window_size hop_size ≠ []) :
    window_size ≤ buffer.length := by
  by_contra hlt
  apply h
  unfold compute_short_time_fourier_transform
  rw [stftLoop_succ, if_neg (by omega)]

theorem stft_nil_of_short (fftFn : List C32 → List C32) (sinSq : Nat → ℚ) (buffer : List ℚ)
    (window_size hop_size : Nat) (h : buffer.length < window_size) :
    compute_short_time_fourier_transform fftFn sinSq buffer window_size hop_size = [] := by
  unfold compute_short_time_fourier_transform
  rw [stftLoop_succ, if_neg (by omega)]

/-! ### Claims C2, C3, C7, C8, C9 -/

/-- C2: one pass over a buffer of length L produces
`floor((L - window_size) / hop_size) + 1` frames when `L ≥ window_size` and
zero frames otherwise; in particular exactly one frame at `L = window_size`
and exactly two at `L = window_size + hop_size`. -/
theorem C2_frame_count (fftFn : List C32 → List C32) (sinSq : Nat → ℚ) (buffer : List ℚ)
    (window_size hop_size : Nat) (hhop : 1 ≤ hop_size) :
    (compute_short_time_fourier_transform fftFn sinSq buffer window_size hop_size).length
        = (if window_size ≤ buffer.length
            then (buffer.length - window_size) / hop_size + 1 else 0)
      ∧ (buffer.length = window_size →
          (compute_short_time_fourier_transform fftFn sinSq buffer window_size hop_size).length
            = 1)
      ∧ (buffer.length = window_size + hop_size →
          (compute_short_time_fourier_transform fftFn sinSq buffer window_size hop_size).length
            = 2) := by
  have h := stft_length fftFn sinSq buffer window_size hop_size hhop
  refine ⟨h, fun he => ?_, fun he => ?_⟩
  · rw [h, if_pos (by omega), he, Nat.sub_self, Nat.zero_div]
  · rw [h, if_pos (by omega), he, Nat.add_sub_cancel_left, Nat.div_self (by omega)]

/-- Witness for C2 at a concrete input. -/
theorem C2_frame_count_witness :
    1 ≤ 1 ∧
      ((compute_short_time_fourier_transform id (fun _ => 1) (List.replicate 5 0) 3 1).length
          = (if 3 ≤ (List.replicate 5 (0 : ℚ)).length
              then ((List.replicate 5 (0 : ℚ)).length - 3) / 1 + 1 else 0)
        ∧ ((List.replicate 5 (0 : ℚ)).length = 3 →
            (compute_short_time_fourier_transform id (fun _ => 1)
              (List.replicate 5 0) 3 1).length = 1)
        ∧ ((List.replicate 5 (0 : ℚ)).length = 3 + 1 →
            (compute_short_time_fourier_transform id (fun _ => 1)
              (List.replicate 5 0) 3 1).length = 2)) :=
  ⟨Nat.le_refl 1, C2_frame_count id (fun _ => 1) (List.replicate 5 0) 3 1 (Nat.le_refl 1)⟩

/-- C3 counterexample: the loop guard `pos + window_size <= buffer.len()` is
inclusive, so an 8192-sample buffer with window_size 4096 and hop_size 2048
yields frames at offsets 0, 2048 and 4096 — three frames, not two. -/
theorem C3_counterexample :
    (compute_short_time_fourier_transform id (fun _ => 1)
        (List.replicate 8192 (0 : ℚ)) 4096 2048).length = 3
      ∧ (compute_short_time_fourier_transform id (fun _ => 1)
          (List.replicate 8192 (0 : ℚ)) 4096 2048).length ≠ 2 := by
  have h := stft_length id (fun _ => 1) (List.replicate 8192 (0 : ℚ)) 4096 2048 (by omega)
  rw [List.length_replicate] at h
  norm_num at h
  exact ⟨h, by omega⟩

/-- C3 amended: with window_size 4096 and hop_size 2048, an 8192-sample buffer
produces exactly three frames. -/
theorem C3_three_frames (fftFn : List C32 → List C32) (sinSq : Nat → ℚ) (buffer : List ℚ)
    (hlen : buffer.length = 8192) :
    (compute_short_time_fourier_transform fftFn sinSq buffer 4096 2048).length = 3 := by
  have h := stft_length fftFn sinSq buffer 4096 2048 (by omega)
  rw [hlen] at h
  norm_num at h
  exact h

/-- Witness for the amended C3 at a concrete input. -/
theorem C3_three_frames_witness :
    (List.replicate 8192 (0 : ℚ)).length = 8192 ∧
      (compute_short_time_fourier_transform id (fun _ => 1)
        (List.replicate 8192 (0 : ℚ)) 4096 2048).length = 3 :=
  ⟨List.length_replicate 8192 0,
    C3_three_frames id (fun _ => 1) (List.replicate 8192 (0 : ℚ)) (List.length_replicate 8192 0)⟩

/-- C7: a pass that produced at least one frame drains exactly
`min hop_size previous_length` samples from the front of the buffer, keeping
the remaining samples unchanged and in order. -/
theorem C7_drain (fftFn : List C32 → List C32) (sinSq : Nat → ℚ) (normFn : C32 → FVal)
    (sample_rate window_size hop_size : Nat) (buffer : List ℚ) (st : PassState)
    (h : compute_short_time_fourier_transform fftFn sinSq buffer window_size hop_size ≠ []) :
    (analysisPass fftFn sinSq normFn sample_rate window_size hop_size buffer st).1
        = buffer.drop (min hop_size buffer.length)
      ∧ (analysisPass fftFn sinSq normFn sample_rate window_size hop_size buffer st).1.length
        = buffer.length - min hop_size buffer.length := by
  have hws := stft_ne_nil_imp fftFn sinSq buffer window_size hop_size h
  have key : (analysisPass fftFn sinSq normFn sample_rate window_size hop_size buffer st).1
      = buffer.drop (min hop_size buffer.length) := by
    unfold analysisPass
    rw [if_neg (by omega), if_neg h]
    split
    · rfl
    · split <;> rfl
  exact ⟨key, by rw [key, List.length_drop]⟩

/-- Witness for C7 at a concrete input. -/
theorem C7_drain_witness :
    compute_short_time_fourier_transform id (fun _ => 1) [(0 : ℚ)] 1 1 ≠ [] ∧
      (analysisPass id (fun _ => 1) (fun _ => some 0) 44100 1 1 [(0 : ℚ)] ("A4", 440)).1
        = [(0 : ℚ)].drop (min 1 [(0 : ℚ)].length) := by
  have hne : compute_short_time_fourier_transform id (fun _ => 1) [(0 : ℚ)] 1 1 ≠ [] := by
    with_unfolding_all decide
  exact ⟨hne, (C7_drain id (fun _ => 1) (fun _ => some 0) 44100 1 1 [(0 : ℚ)] ("A4", 440) hne).1⟩

/-- C8: a buffer shorter than window_size yields no frames, drains nothing and
leaves the published result state unchanged. -/
theorem C8_insufficient_data (fftFn : List C32 → List C32) (sinSq : Nat → ℚ)
    (normFn : C32 → FVal) (sample_rate window_size hop_size : Nat) (buffer : List ℚ)
    (st : PassState) (h : buffer.length < window_size) :
    analysisPass fftFn sinSq normFn sample_rate window_size hop_size buffer st = (buffer, st)
      ∧ compute_short_time_fourier_transform fftFn sinSq buffer window_size hop_size = [] := by
  constructor
  · unfold analysisPass
    rw [if_pos h]
  · exact stft_nil_of_short fftFn sinSq buffer window_size hop_size h

/-- Witness for C8 at a concrete input. -/
theorem C8_insufficient_data_witness :
    ([(1 : ℚ)] : List ℚ).length < 4096 ∧
      (analysisPass id (fun _ => 1) (fun _ => some 0) 44100 4096 2048 [(1 : ℚ)] ("A4", 440)
          = ([(1 : ℚ)], ("A4", 440))
        ∧ compute_short_time_fourier_transform id (fun _ => 1) [(1 : ℚ)] 4096 2048 = []) :=
  ⟨by decide,
    C8_insufficient_data id (fun _ => 1) (fun _ => some 0) 44100 4096 2048 [(1 : ℚ)]
      ("A4", 440) (by decide)⟩

/-- C9: before any analysis pass, the published result state holds the note
label "A4" with frequency 440. -/
theorem C9_initial_state : initialDetectedNote = "A4" ∧ initialDetectedFreq = 440 :=
  ⟨rfl, rfl⟩

/-! ### The `max_by` selection of the dominant-frequency estimator -/

theorem qcmp_eq_gt_iff (a b : ℚ) : qcmp a b = .gt ↔ b < a := by
  unfold qcmp
  by_cases h1 : a < b
  · rw [if_pos h1]
    exact iff_of_false (fun h => Ordering.noConfusion h) (by intro h; linarith)
  · rw [if_neg h1]
    by_cases h2 : b < a
    · rw [if_pos h2]
      exact iff_of_true rfl h2
    · rw [if_neg h2]
      exact iff_of_false (fun h => Ordering.noConfusion h) h2

theorem maxByStep_of_gt {acc y : Nat × FVal} {a b : ℚ} (ha : acc.2 = some a)
    (hb : y.2 = some b) (h : b < a) : maxByStep acc y = acc := by
  have hf : fcmp acc.2 y.2 = some (qcmp a b) := by rw [ha, hb]; rfl
  unfold maxByStep
  rw [hf, (qcmp_eq_gt_iff a b).mpr h]

theorem maxByStep_of_not_gt {acc y : Nat × FVal} {a b : ℚ} (ha : acc.2 = some a)
    (hb : y.2 = some b) (h : ¬ b < a) : maxByStep acc y = y := by
  have hf : fcmp acc.2 y.2 = some (qcmp a b) := by rw [ha, hb]; rfl
  have hq : qcmp a b ≠ .gt := fun hc => h ((qcmp_eq_gt_iff a b).mp hc)
  unfold maxByStep
  rw [hf]
  cases hg : qcmp a b
  · rfl
  · rfl
  · exact absurd hg hq

theorem pairwise_fst_lt_enumFrom {α : Type} (l : List α) (n : Nat) :
    List.Pairwise (fun a b => a.1 < b.1) (l.enumFrom n) := by
  induction l generalizing n with
  | nil => exact List.Pairwise.nil
  | cons x xs ih =>
    rw [List.enumFrom_cons]
    refine List.Pairwise.cons ?_ (ih (n + 1))
    rintro ⟨j, z⟩ hy
    have := (List.mk_mem_enumFrom_iff_le_and_getElem?_sub.mp hy).1
    simpa using by omega

/-- The invariant of the `max_by` fold over a NaN-free enumeration whose
indices sit strictly above the accumulator's: the result is one of the
scanned pairs, its value is the maximum, and every pair with a larger index
has a strictly smaller value (ties go to the last occurrence). -/
theorem foldl_maxByStep_spec :
    ∀ (xs : List (Nat × FVal)) (acc : Nat × FVal),
      acc.2 ≠ none → (∀ y ∈ xs, y.2 ≠ none) → (∀ y ∈ xs, acc.1 < y.1) →
      List.Pairwise (fun a b => a.1 < b.1) xs →
      (xs.foldl maxByStep acc ∈ acc :: xs
        ∧ (xs.foldl maxByStep acc).2 ≠ none
        ∧ (∀ y ∈ acc :: xs, y.2.getD 0 ≤ (xs.foldl maxByStep acc).2.getD 0)
        ∧ (∀ y ∈ acc :: xs, (xs.foldl maxByStep acc).1 < y.1 →
            y.2.getD 0 < (xs.foldl maxByStep acc).2.getD 0)) := by
  intro xs
  induction xs with
  | nil =>
    intro acc hacc _ _ _
    refine ⟨List.mem_cons_self _ _, hacc, ?_, ?_⟩
    · intro y hy
      rcases List.mem_cons.mp hy with h | h
      · rw [h]; exact le_rfl
      · cases h
    · intro y hy hlt
      rcases List.mem_cons.mp hy with h | h
      · rw [h] at hlt; exact absurd hlt (lt_irrefl _)
      · cases h
  | cons y ys ih =>
    intro acc hacc hsome hidx hpw
    rcases hacc2 : acc.2 with _ | a
    · exact absurd hacc2 hacc
    rcases hy2 : y.2 with _ | b
    · exact absurd hy2 (hsome y (List.mem_cons_self _ _))
    have hysome : ∀ z ∈ ys, z.2 ≠ none := fun z hz => hsome z (List.mem_cons_of_mem _ hz)
    have hypw : List.Pairwise (fun a b => a.1 < b.1) ys := (List.pairwise_cons.mp hpw).2
    have hyhead : ∀ z ∈ ys, y.1 < z.1 := (List.pairwise_cons.mp hpw).1
    rw [List.foldl_cons]
    by_cases hba : b < a
    · rw [maxByStep_of_gt hacc2 hy2 hba]
      have IH := ih acc hacc hysome
        (fun z hz => hidx z (List.mem_cons_of_mem _ hz)) hypw
      obtain ⟨hmem, hnn, hle, hstrict⟩ := IH
      have hacc_le : a ≤ (ys.foldl maxByStep acc).2.getD 0 := by
        have := hle acc (List.mem_cons_self _ _)
        rwa [hacc2] at this
      refine ⟨?_, hnn, ?_, ?_⟩
      · rcases List.mem_cons.mp hmem with h | h
        · rw [h]; exact List.mem_cons_self _ _
        · exact List.mem_cons_of_mem _ (List.mem_cons_of_mem _ h)
      · intro z hz
        rcases List.mem_cons.mp hz with h | h
        · rw [h, hacc2]; exact hacc_le
        · rcases List.mem_cons.mp h with h2 | h2
          · rw [h2, hy2]
            simp only [Option.getD_some]
            linarith
          · exact hle z (List.mem_cons_of_mem _ h2)
      · intro z hz hlt
        rcases List.mem_cons.mp hz with h | h
        · rw [h] at hlt ⊢
          exact hstrict acc (List.mem_cons_self _ _) hlt
        · rcases List.mem_cons.mp h with h2 | h2
          · rw [h2, hy2]
            simp only [Option.getD_some]
            linarith
          · exact hstrict z (List.mem_cons_of_mem _ h2) hlt
    · rw [maxByStep_of_not_gt hacc2 hy2 hba]
      have IH := ih y (by rw [hy2]; exact fun h => Option.noConfusion h) hysome hyhead hypw
      obtain ⟨hmem, hnn, hle, hstrict⟩ := IH
      have hy_le : b ≤ (ys.foldl maxByStep y).2.getD 0 := by
        have := hle y (List.mem_cons_self _ _)
        rwa [hy2] at this
      have hr_gt_acc : acc.1 < (ys.foldl maxByStep y).1 := by
        rcases List.mem_cons.mp hmem with h | h
        · rw [h]; exact hidx y (List.mem_cons_self _ _)
        · exact lt_trans (hidx y (List.mem_cons_self _ _)) (hyhead _ h)
      refine ⟨?_, hnn, ?_, ?_⟩
      · exact List.mem_cons_of_mem _ hmem
      · intro z hz
        rcases List.mem_cons.mp hz with h | h
        · rw [h, hacc2]
          simp only [Option.getD_some]
          linarith [not_lt.mp hba]
        · exact hle z h
      · intro z hz hlt
        rcases List.mem_cons.mp hz with h | h
        · rw [h] at hlt
          exact absurd hlt (by omega)
        · exact hstrict z h hlt

/-! ### Claim C1 -/

/-- C1 counterexample: on the averaged spectrum [5, 5] the estimator selects
bin 1, not the first-occurrence bin 0; on [1, NaN] it selects bin 1, which is
the NaN bin. -/
theorem C1_counterexample :
    strongestBin [some 5, some 5] = some 1
      ∧ strongestBin [some 1, none] = some 1
      ∧ [some (1 : ℚ), none].getD 1 (some 0) = none := by
  decide

/-- C1 amended: on a NaN-free averaged spectrum the estimator selects a bin
holding the maximum magnitude, with ties resolved by the LAST occurrence
(every later bin is strictly smaller), and converts the winning bin k to the
frequency `k * sample_rate / window_size`.  (With NaN present the `Equal`
fallback of `unwrap_or` lets a NaN bin, or an arbitrary later bin, win.) -/
theorem C1_estimator_behavior (spectrum : List FVal) (hne : spectrum ≠ [])
    (hnan : ∀ x ∈ spectrum, x ≠ none) :
    ∃ (k : Nat) (v : ℚ), strongestBin spectrum = some k ∧ spectrum[k]? = some (some v)
      ∧ (∀ (j : Nat) (w : ℚ), spectrum[j]? = some (some w) → w ≤ v)
      ∧ (∀ (j : Nat) (w : ℚ), k < j → spectrum[j]? = some (some w) → w < v)
      ∧ (∀ sample_rate window_size : Nat, binFrequency sample_rate window_size k
          = (k : ℚ) * (sample_rate : ℚ) / (window_size : ℚ)) := by
  rcases hsp : spectrum with _ | ⟨s0, rest⟩
  · exact absurd hsp hne
  subst hsp
  have hsb : strongestBin (s0 :: rest)
      = some (((rest.enumFrom 1).foldl maxByStep (0, s0)).1) := rfl
  have spec := foldl_maxByStep_spec (rest.enumFrom 1) (0, s0)
    (hnan s0 (List.mem_cons_self _ _))
    (by
      rintro ⟨j, z⟩ hy
      have h2 := (List.mk_mem_enumFrom_iff_le_and_getElem?_sub.mp hy).2
      exact hnan z (List.mem_cons_of_mem _ (List.getElem?_mem h2)))
    (by
      rintro ⟨j, z⟩ hy
      have h1 := (List.mk_mem_enumFrom_iff_le_and_getElem?_sub.mp hy).1
      simpa using by omega)
    (pairwise_fst_lt_enumFrom rest 1)
  obtain ⟨hmem, hnn, hle, hstrict⟩ := spec
  have henum : (0, s0) :: rest.enumFrom 1 = (s0 :: rest).enum := rfl
  rcases hr2 : ((rest.enumFrom 1).foldl maxByStep (0, s0)).2 with _ | v
  · exact absurd hr2 hnn
  refine ⟨((rest.enumFrom 1).foldl maxByStep (0, s0)).1, v, hsb, ?_, ?_, ?_, ?_⟩
  · have : (rest.enumFrom 1).foldl maxByStep (0, s0) ∈ (s0 :: rest).enum := henum ▸ hmem
    have h3 := List.mem_enum_iff_getElem?.mp this
    rwa [hr2] at h3
  · intro j w hj
    have hjm : (j, some w) ∈ (s0 :: rest).enum := List.mem_enum_iff_getElem?.mpr hj
    have := hle (j, some w) (henum ▸ hjm)
    rwa [hr2, Option.getD_some, Option.getD_some] at this
  · intro j w hk hj
    have hjm : (j, some w) ∈ (s0 :: rest).enum := List.mem_enum_iff_getElem?.mpr hj
    have := hstrict (j, some w) (henum ▸ hjm) hk
    rwa [hr2, Option.getD_some, Option.getD_some] at this
  · intro sample_rate window_size
    unfold binFrequency
    rw [mul_div_assoc]

/-- Witness for the amended C1 at a concrete input. -/
theorem C1_estimator_behavior_witness :
    ([some (1 : ℚ), some 2] ≠ [] ∧ ∀ x ∈ [some (1 : ℚ), some 2], x ≠ none)
      ∧ (∃ (k : Nat) (v : ℚ), strongestBin [some (1 : ℚ), some 2] = some k
          ∧ [some (1 : ℚ), some 2][k]? = some (some v)
          ∧ (∀ (j : Nat) (w : ℚ), [some (1 : ℚ), some 2][j]? = some (some w) → w ≤ v)
          ∧ (∀ (j : Nat) (w : ℚ), k < j → [some (1 : ℚ), some 2][j]? = some (some w) → w < v)
          ∧ (∀ sample_rate window_size : Nat, binFrequency sample_rate window_size k
              = (k : ℚ) * (sample_rate : ℚ) / (window_size : ℚ))) :=
  ⟨⟨by decide, by decide⟩,
    C1_estimator_behavior [some (1 : ℚ), some 2] (by decide) (by decide)⟩

/-! ### The candidate scan of the note quantizer -/

theorem qabs_eq_abs (a : ℚ) : qabs a = |a| := by
  unfold qabs
  by_cases h : a < 0
  · rw [if_pos h, abs_of_neg h]
  · rw [if_neg h, abs_of_nonneg (not_lt.mp h)]

theorem qabs_nonneg (a : ℚ) : 0 ≤ qabs a := by
  rw [qabs_eq_abs]; exact abs_nonneg a

/-- The scan of lines 160-169 either improves on the running state never
(keeping it), or ends at some candidate `c` that beat the state's `min_diff`,
beats every earlier candidate strictly, and is beaten by no later one. -/
theorem noteScan_foldl_spec (f : ℚ) :
    ∀ (cs : List (String × Nat × ℚ)) (st : ℚ × Option (String × ℚ) × Nat),
      (cs.foldl (noteScanStep f) st = st ∧ ∀ c ∈ cs, st.1 ≤ qabs (f - c.2.2))
      ∨ (∃ l c r, cs = l ++ c :: r
          ∧ cs.foldl (noteScanStep f) st = (qabs (f - c.2.2), some (c.1, c.2.2), c.2.1)
          ∧ qabs (f - c.2.2) < st.1
          ∧ (∀ c' ∈ l, qabs (f - c.2.2) < qabs (f - c'.2.2))
          ∧ (∀ c' ∈ r, qabs (f - c.2.2) ≤ qabs (f - c'.2.2))) := by
  intro cs
  induction cs with
  | nil =>
    intro st
    left
    exact ⟨rfl, by intro c hc; cases hc⟩
  | cons c0 rest ih =>
    intro st
    rw [List.foldl_cons]
    by_cases h0 : qabs (f - c0.2.2) < st.1
    · have hstep : noteScanStep f st c0
          = (qabs (f - c0.2.2), some (c0.1, c0.2.2), c0.2.1) := by
        unfold noteScanStep; rw [if_pos h0]
      rw [hstep]
      rcases ih (qabs (f - c0.2.2), some (c0.1, c0.2.2), c0.2.1) with
        ⟨heq, hge⟩ | ⟨l, c, r, hsplit, heq, hlt, hl, hr⟩
      · right
        refine ⟨[], c0, rest, rfl, heq, h0, ?_, ?_⟩
        · intro c' hc'; cases hc'
        · intro c' hc'; exact hge c' hc'
      · right
        refine ⟨c0 :: l, c, r, by rw [hsplit]; rfl, heq, lt_trans hlt h0, ?_, hr⟩
        intro c' hc'
        rcases List.mem_cons.mp hc' with h | h
        · rw [h]; exact hlt
        · exact hl c' h
    · have hstep : noteScanStep f st c0 = st := by
        unfold noteScanStep; rw [if_neg h0]
      rw [hstep]
      rcases ih st with ⟨heq, hge⟩ | ⟨l, c, r, hsplit, heq, hlt, hl, hr⟩
      · left
        refine ⟨heq, ?_⟩
        intro c' hc'
        rcases List.mem_cons.mp hc' with h | h
        · rw [h]; exact not_lt.mp h0
        · exact hge c' h
      · right
        refine ⟨c0 :: l, c, r, by rw [hsplit]; rfl, heq, hlt, ?_, hr⟩
        intro c' hc'
        rcases List.mem_cons.mp hc' with h | h
        · rw [h]; exact lt_of_lt_of_le hlt (not_lt.mp h0)
        · exact hl c' h

/-- If any candidate's difference beats `f32::MAX`, the scan selects a
candidate whose difference is minimal over the whole table. -/
theorem noteScan_min (f : ℚ)
    (hex : ∃ c0 ∈ candidates, qabs (f - c0.2.2) < f32MAX) :
    ∃ c ∈ candidates,
      noteScan f = (qabs (f - c.2.2), some (c.1, c.2.2), c.2.1)
        ∧ ∀ c' ∈ candidates, qabs (f - c.2.2) ≤ qabs (f - c'.2.2) := by
  obtain ⟨c0, hc0m, hc0⟩ := hex
  rcases noteScan_foldl_spec f candidates (f32MAX, none, 0) with
    ⟨heq, hge⟩ | ⟨l, c, r, hsplit, heq, hlt, hl, hr⟩
  · exact absurd hc0 (not_lt.mpr (hge c0 hc0m))
  · refine ⟨c, ?_, heq, ?_⟩
    · rw [hsplit]; exact List.mem_append_right _ (List.mem_cons_self _ _)
    · intro c' hc'
      rw [hsplit] at hc'
      rcases List.mem_append.mp hc' with h | h
      · exact le_of_lt (hl c' h)
      · rcases List.mem_cons.mp h with h2 | h2
        · rw [h2]
        · exact hr c' h2

/-- Moving the probe point up keeps the farther-of-two points farther:
if `a < b` and `f1` is at least as close to `b` as to `a`, any `f2 > f1`
is strictly closer to `b` than to `a`. -/
theorem abs_closer_mono {a b f1 f2 : ℚ} (hab : a < b) (h12 : f1 < f2)
    (h1 : |f1 - b| ≤ |f1 - a|) : |f2 - b| < |f2 - a| := by
  rcases abs_cases (f1 - b) with ⟨e1, s1⟩ | ⟨e1, s1⟩ <;>
    rcases abs_cases (f1 - a) with ⟨e2, s2⟩ | ⟨e2, s2⟩ <;>
    rcases abs_cases (f2 - b) with ⟨e3, s3⟩ | ⟨e3, s3⟩ <;>
    rcases abs_cases (f2 - a) with ⟨e4, s4⟩ | ⟨e4, s4⟩ <;>
    (rw [e1, e2] at h1; rw [e3, e4]; linarith)

/-! ### Decided facts about the candidate table -/

theorem candidates_pos : ∀ c ∈ candidates, 0 < c.2.2 := by
  with_unfolding_all decide

theorem candidates_freq_oct :
    List.Pairwise (fun a b => a.2.2 < b.2.2 ∧ a.2.1 ≤ b.2.1) candidates := by
  with_unfolding_all decide

/-- The lowest table frequency, C0 = 261.63 / 16. -/
def candLoFreq : ℚ := 261.63 * powi 2 ((0 : ℤ) - 4)

/-- The highest table frequency, B7 = 493.88 * 8. -/
def candHiFreq : ℚ := 493.88 * powi 2 ((7 : ℤ) - 4)

theorem c0_mem_candidates : ("C", 0, candLoFreq) ∈ candidates := by
  unfold candidates
  refine List.mem_flatMap.mpr ⟨0, List.mem_range.mpr (by omega), ?_⟩
  exact List.mem_map.mpr ⟨("C", 261.63), List.mem_cons_self _ _, rfl⟩

theorem candidates_bounds :
    ∀ c ∈ candidates, candLoFreq ≤ c.2.2 ∧ c.2.2 ≤ candHiFreq := by
  with_unfolding_all decide

theorem candidates_span_lt :
    candHiFreq - candLoFreq < f32MAX ∧ candHiFreq < f32MAX
      ∧ (0 : ℚ) < f32MAX ∧ 0 < candLoFreq := by
  with_unfolding_all decide

theorem notes_getD_mem : ∀ n : Fin 12, NOTES.getD n.1 ("", 0) ∈ NOTES := by
  intro n
  have hlen : n.1 < NOTES.length := by
    have h12 : NOTES.length = 12 := rfl
    omega
  have hg : NOTES.getD n.1 ("", 0) = NOTES[n.1] := by
    simp only [List.getD_eq_getElem?_getD, List.getElem?_eq_getElem hlen, Option.getD_some]
  rw [hg]
  exact List.getElem_mem hlen

/-- Distinct candidates have distinct frequencies, so a candidate is
determined by its frequency. -/
theorem candidates_freq_inj :
    ∀ c ∈ candidates, ∀ c' ∈ candidates, c.2.2 = c'.2.2 → c = c' := by
  intro c hc c' hc' hf
  by_contra hne
  have hpw : List.Pairwise (fun a b : String × Nat × ℚ => a.2.2 ≠ b.2.2) candidates :=
    candidates_freq_oct.imp (fun h => ne_of_lt h.1)
  have hsym : Symmetric (fun a b : String × Nat × ℚ => a.2.2 ≠ b.2.2) :=
    fun a b h => h.symm
  exact (hpw.forall hsym hc hc' hne) hf

/-- Any in-range positive frequency has a candidate within `f32::MAX`. -/
theorem hex_of_range {f : ℚ} (h0 : 0 < f) (hM : f < f32MAX) :
    ∃ c0 ∈ candidates, qabs (f - c0.2.2) < f32MAX := by
  obtain ⟨hspan, hhi, hMpos, hlo⟩ := candidates_span_lt
  refine ⟨("C", 0, candLoFreq), c0_mem_candidates, ?_⟩
  have hlohi : candLoFreq ≤ candHiFreq := (candidates_bounds _ c0_mem_candidates).2
  rw [qabs_eq_abs, abs_lt]
  constructor <;> [linarith; linarith]

/-! ### Claim C4 -/

/-- C4 counterexample: `min_diff` starts at `f32::MAX`, so for the positive
frequency `2^130` (larger than `f32::MAX` plus every candidate) no candidate
ever satisfies `diff < min_diff` and the quantizer returns `None` despite a
positive input. -/
theorem C4_counterexample :
    (0 : ℚ) < ((2 ^ 130 : ℕ) : ℚ)
      ∧ frequency_to_note ((2 ^ 130 : ℕ) : ℚ) = none := by
  with_unfolding_all decide

/-- C4 amended: the quantizer returns no result for every non-positive
frequency, returns a result for every positive frequency below `f32::MAX`
(the "only if" of the claim fails only for inputs at least
`f32::MAX + 3951.04`), and whenever it returns no result the published
result state is left unchanged by the analysis step. -/
theorem C4_quantizer_none_behavior :
    (∀ f : ℚ, f ≤ 0 → frequency_to_note f = none)
      ∧ (∀ f : ℚ, 0 < f → f < f32MAX → (frequency_to_note f).isSome = true)
      ∧ (∀ (sample_rate window_size : Nat) (avg : List FVal) (st : PassState),
          (∀ k, strongestBin avg = some k →
            frequency_to_note (binFrequency sample_rate window_size k) = none) →
          quantizeStep sample_rate window_size avg st = st) := by
  refine ⟨?_, ?_, ?_⟩
  · intro f hf
    unfold frequency_to_note
    rw [if_pos hf]
  · intro f h0 hM
    obtain ⟨c, hcm, heq, hmin⟩ := noteScan_min f (hex_of_range h0 hM)
    unfold frequency_to_note
    rw [if_neg (not_le.mpr h0), heq]
    rfl
  · intro sr ws avg st h
    unfold quantizeStep
    cases hmb : rustMaxBy avg.enum with
    | none => rfl
    | some kv =>
      have hk := h kv.1 (by unfold strongestBin; rw [hmb]; rfl)
      show (match frequency_to_note (binFrequency sr ws kv.1) with
        | none => st
        | some nf => (nf.1, binFrequency sr ws kv.1)) = st
      rw [hk]

/-- Witness for the amended C4 at concrete inputs. -/
theorem C4_quantizer_none_behavior_witness :
    frequency_to_note (-1) = none
      ∧ (frequency_to_note 440).isSome = true
      ∧ quantizeStep 44100 4096 [] ("A4", 440) = ("A4", 440) := by
  have h440 : (440 : ℚ) < f32MAX := by with_unfolding_all decide
  refine ⟨C4_quantizer_none_behavior.1 (-1) (by norm_num),
    C4_quantizer_none_behavior.2.1 440 (by norm_num) h440,
    C4_quantizer_none_behavior.2.2 44100 4096 [] ("A4", 440) ?_⟩
  intro k hk
  have hnone : strongestBin ([] : List FVal) = none := rfl
  rw [hnone] at hk
  exact Option.noConfusion hk

/-! ### Claim C5 -/

/-- Quantizing the exact frequency of any table candidate returns that
candidate's name, octave and frequency. -/
theorem roundtrip_of_mem (c : String × Nat × ℚ) (hmem : c ∈ candidates) :
    frequency_to_note c.2.2 = some (c.1 ++ toString c.2.1, c.2.2) := by
  have hpos : 0 < c.2.2 := candidates_pos _ hmem
  have hd0 : qabs (c.2.2 - c.2.2) = 0 := by rw [sub_self, qabs_eq_abs, abs_zero]
  have hex : ∃ c0 ∈ candidates, qabs (c.2.2 - c0.2.2) < f32MAX :=
    ⟨c, hmem, by rw [hd0]; exact candidates_span_lt.2.2.1⟩
  obtain ⟨cw, hcm, heq, hmin⟩ := noteScan_min c.2.2 hex
  have h1 : qabs (c.2.2 - cw.2.2) ≤ qabs (c.2.2 - c.2.2) := hmin _ hmem
  rw [hd0] at h1
  have hdc0 : qabs (c.2.2 - cw.2.2) = 0 := le_antisymm h1 (qabs_nonneg _)
  have hfc : cw.2.2 = c.2.2 := by
    rw [qabs_eq_abs, abs_eq_zero, sub_eq_zero] at hdc0
    exact hdc0.symm
  have hceq : cw = c := candidates_freq_inj cw hcm c hmem hfc
  unfold frequency_to_note
  rw [if_neg (not_le.mpr hpos), heq, hceq]
  rfl

/-- C5: quantizing each of the 96 reference frequencies
`base * 2^(octave - 4)` of the table returns exactly that note's name
concatenated with that octave, carrying exactly that frequency (so the
difference to the returned note frequency is zero). -/
theorem C5_roundtrip :
    ∀ (o : Fin 8) (n : Fin 12),
      frequency_to_note ((NOTES.getD n.1 ("", 0)).2 * powi 2 ((o.1 : ℤ) - 4))
        = some ((NOTES.getD n.1 ("", 0)).1 ++ toString o.1,
            (NOTES.getD n.1 ("", 0)).2 * powi 2 ((o.1 : ℤ) - 4)) := by
  intro o n
  have hmem : ((NOTES.getD n.1 ("", 0)).1, o.1,
      (NOTES.getD n.1 ("", 0)).2 * powi 2 ((o.1 : ℤ) - 4)) ∈ candidates := by
    unfold candidates
    exact List.mem_flatMap_of_mem (List.mem_range.mpr o.2)
      (List.mem_map_of_mem _ (notes_getD_mem n))
  exact roundtrip_of_mem _ hmem

/-! ### Claim C6 -/

/-- The quantizer table's covered range, C0 to B7. -/
abbrev coveredRange (f : ℚ) : Prop := candLoFreq ≤ f ∧ f ≤ candHiFreq

/-- `f` is not equidistant from any two candidates of the table. -/
abbrev noTies (f : ℚ) : Prop :=
  List.Pairwise (fun a b => qabs (f - a.2.2) ≠ qabs (f - b.2.2)) candidates

/-- C6: for two frequencies `f1 < f2` inside the covered range (and, as the
claim requires, with no candidate ties), the octave selected by the candidate
scan — the `closest_octave` that `frequency_to_note` prints into the label —
is non-decreasing. -/
theorem C6_octave_monotone (f1 f2 : ℚ) (h12 : f1 < f2)
    (h1 : coveredRange f1) (h2 : coveredRange f2)
    (ht1 : noTies f1) (ht2 : noTies f2) :
    (noteScan f1).2.2 ≤ (noteScan f2).2.2 := by
  obtain ⟨hspan, hhi, hMpos, hlo⟩ := candidates_span_lt
  have hex1 : ∃ c0 ∈ candidates, qabs (f1 - c0.2.2) < f32MAX := by
    refine ⟨("C", 0, candLoFreq), c0_mem_candidates, ?_⟩
    obtain ⟨hA, hB⟩ := h1
    rw [qabs_eq_abs, abs_lt]
    constructor <;> [linarith; linarith]
  have hex2 : ∃ c0 ∈ candidates, qabs (f2 - c0.2.2) < f32MAX := by
    refine ⟨("C", 0, candLoFreq), c0_mem_candidates, ?_⟩
    obtain ⟨hA, hB⟩ := h2
    rw [qabs_eq_abs, abs_lt]
    constructor <;> [linarith; linarith]
  obtain ⟨c1, hm1, he1, hmin1⟩ := noteScan_min f1 hex1
  obtain ⟨c2, hm2, he2, hmin2⟩ := noteScan_min f2 hex2
  rw [he1, he2]
  show c1.2.1 ≤ c2.2.1
  by_cases hcc : c1 = c2
  · rw [hcc]
  · have hpw' : List.Pairwise (fun a b : String × Nat × ℚ =>
        (a.2.2 < b.2.2 ∧ a.2.1 ≤ b.2.1) ∨ (b.2.2 < a.2.2 ∧ b.2.1 ≤ a.2.1)) candidates :=
      candidates_freq_oct.imp (fun h => Or.inl h)
    have hsym : Symmetric (fun a b : String × Nat × ℚ =>
        (a.2.2 < b.2.2 ∧ a.2.1 ≤ b.2.1) ∨ (b.2.2 < a.2.2 ∧ b.2.1 ≤ a.2.1)) := by
      intro a b h
      rcases h with h | h
      · exact Or.inr h
      · exact Or.inl h
    rcases hpw'.forall hsym hm1 hm2 hcc with ⟨hflt, hole⟩ | ⟨hflt, hole⟩
    · exact hole
    · exfalso
      have ha := hmin1 c2 hm2
      have hb := hmin2 c1 hm1
      rw [qabs_eq_abs, qabs_eq_abs] at ha hb
      have hmono := abs_closer_mono hflt h12 ha
      linarith

/-- Witness for C6 at concrete inputs. -/
theorem C6_octave_monotone_witness :
    ((100 : ℚ) < 1000 ∧ coveredRange 100 ∧ coveredRange 1000 ∧ noTies 100 ∧ noTies 1000)
      ∧ (noteScan 100).2.2 ≤ (noteScan 1000).2.2 := by
  have ha : (100 : ℚ) < 1000 := by norm_num
  have hc1 : coveredRange 100 := by with_unfolding_all decide
  have hc2 : coveredRange 1000 := by with_unfolding_all decide
  have ht1 : noTies 100 := by with_unfolding_all decide
  have ht2 : noTies 1000 := by with_unfolding_all decide
  exact ⟨⟨ha, hc1, hc2, ht1, ht2⟩, C6_octave_monotone 100 1000 ha hc1 hc2 ht1 ht2⟩

/-! ### Claim C10 -/

theorem windowedFrame_length (sinSq : Nat → ℚ) (buffer : List ℚ) (window_size pos : Nat)
    (h : pos + window_size ≤ buffer.length) :
    (windowedFrame sinSq buffer window_size pos).length = window_size := by
  unfold windowedFrame hannCoeffs
  rw [List.length_map, List.length_zip, List.length_take, List.length_drop,
    List.length_map, List.length_range]
  omega

theorem stft_cons (fftFn : List C32 → List C32) (sinSq : Nat → ℚ) (buffer : List ℚ)
    (window_size hop_size : Nat) (h : window_size ≤ buffer.length) :
    compute_short_time_fourier_transform fftFn sinSq buffer window_size hop_size
      = fftFn (windowedFrame sinSq buffer window_size 0) ::
        stftLoop fftFn sinSq buffer window_size hop_size (0 + hop_size) buffer.length := by
  unfold compute_short_time_fourier_transform
  rw [stftLoop_succ, if_pos (by omega)]

/-- C10: when the buffer holds at least window_size samples, window_size ≥ 2
and hop_size ≥ 1, and the transform preserves frame length (as rustfft does),
the frame list is non-empty, its first magnitude spectrum has
`window_size / 2 > 0` bins, and the pass takes the non-degenerate branch —
the two skip branches of lines 85-89 and 99-103 are unreachable. -/
theorem C10_no_degenerate (fftFn : List C32 → List C32) (sinSq : Nat → ℚ) (normFn : C32 → FVal)
    (sample_rate window_size hop_size : Nat) (buffer : List ℚ) (st : PassState)
    (hfft : ∀ l, (fftFn l).length = l.length)
    (hws : window_size ≤ buffer.length) (h2 : 2 ≤ window_size) (hhop : 1 ≤ hop_size) :
    ∃ f0 fs,
      compute_short_time_fourier_transform fftFn sinSq buffer window_size hop_size = f0 :: fs
        ∧ ((f0.take (window_size / 2)).map normFn).length = window_size / 2
        ∧ 0 < window_size / 2
        ∧ analysisPass fftFn sinSq normFn sample_rate window_size hop_size buffer st
          = (buffer.drop (min hop_size buffer.length),
             quantizeStep sample_rate window_size
               (averageMagnitudes
                 ((f0 :: fs).map (fun fr => (fr.take (window_size / 2)).map normFn))
                 ((f0.take (window_size / 2)).map normFn).length) st) := by
  have hcons := stft_cons fftFn sinSq buffer window_size hop_size hws
  have hf0len : (fftFn (windowedFrame sinSq buffer window_size 0)).length = window_size := by
    rw [hfft]
    exact windowedFrame_length sinSq buffer window_size 0 (by omega)
  have hm0len :
      (((fftFn (windowedFrame sinSq buffer window_size 0)).take (window_size / 2)).map
        normFn).length = window_size / 2 := by
    rw [List.length_map, List.length_take, hf0len]
    exact min_eq_left (Nat.div_le_self _ _)
  have hbins : 0 < window_size / 2 := by omega
  have hm0ne :
      ((fftFn (windowedFrame sinSq buffer window_size 0)).take (window_size / 2)).map normFn
        ≠ [] := by
    intro hnil
    rw [hnil] at hm0len
    simp at hm0len
    omega
  refine ⟨fftFn (windowedFrame sinSq buffer window_size 0),
    stftLoop fftFn sinSq buffer window_size hop_size (0 + hop_size) buffer.length,
    hcons, hm0len, hbins, ?_⟩
  unfold analysisPass
  rw [if_neg (by omega), hcons, if_neg (List.cons_ne_nil _ _)]
  simp only [List.map_cons]
  rw [if_neg hm0ne]

/-- Witness for C10 at a concrete input. -/
theorem C10_no_degenerate_witness :
    (∀ l : List C32, (id l).length = l.length) ∧
      (∃ f0 fs,
        compute_short_time_fourier_transform id (fun _ => 1) [(0 : ℚ), 0] 2 1 = f0 :: fs
          ∧ ((f0.take (2 / 2)).map (fun c : C32 => some c.1)).length = 2 / 2
          ∧ 0 < 2 / 2
          ∧ analysisPass id (fun _ => 1) (fun c : C32 => some c.1) 44100 2 1 [(0 : ℚ), 0]
              ("A4", 440)
            = ([(0 : ℚ), 0].drop (min 1 [(0 : ℚ), 0].length),
               quantizeStep 44100 2
                 (averageMagnitudes
                   ((f0 :: fs).map (fun fr => (fr.take (2 / 2)).map (fun c : C32 => some c.1)))
                   ((f0.take (2 / 2)).map (fun c : C32 => some c.1)).length) ("A4", 440))) :=
  ⟨fun _ => rfl,
    C10_no_degenerate id (fun _ => 1) (fun c => some c.1) 44100 2 1 [(0 : ℚ), 0] ("A4", 440)
      (fun _ => rfl) (by decide) (by omega) (by omega)⟩
